import Mathlib

/-!
# Reminder scheduling and archival workers of the calendar service

A shallow embedding of `internal/pkg/workers/notifier.go`,
`internal/pkg/worker/worker.go`, `internal/pkg/workers/cleaner.go`,
`internal/pkg/workers/async_logger.go` and the records of
`internal/models/models.go`, followed by the properties proved about them.

Modelling conventions.

* A Go `time.Time` is the instant it denotes, counted in nanoseconds (an
  `Int`). `Before` and `After` compare instants, `Add` adds a duration.
* A Go `map[string]*T` is an association list with one entry per key; the
  order of the list is the order in which `range` visits the map. The
  pointers held in maps, slices and channels are non-nil and stand for the
  records they point to.
* An `error` is `Option String`: `none` is `nil`, `some e` carries the text.
* The collaborators behind interfaces (`mailI`, `Repository`, `json.Marshal`)
  are parameters. Interfaces may keep private state, so each method takes the
  state of the implementation and returns the next one.
* The zap logger is the list of records written so far.
-/

namespace Calendar

/-- The constant `time.Hour`, in nanoseconds. -/
def Hour : Int := 3600000000000

/-! ## internal/models/models.go -/

namespace models

/-- Record `models.EventCreate`. -/
structure EventCreate where
  UserID : Int
  Event : String
  Date : Int
  Mail : String
deriving DecidableEq, Repr

/-- Record `models.EventToClean`. -/
structure EventToClean where
  ID : Nat
  UserID : Int
  Event : String
  Date : Int
  Mail : String
  CreatedAt : Int
deriving DecidableEq, Repr

end models

open models

/-! ## Go maps with string keys -/

/-- A Go `map[string]*T`, as the list of its entries in iteration order. -/
abbrev GoMap (α : Type) := List (String × α)

namespace GoMap

variable {α : Type}

/-- Keys of the map, in iteration order. -/
def keys (m : GoMap α) : List String := m.map Prod.fst

/-- The map type invariant: one entry per key. -/
def WF (m : GoMap α) : Prop := (keys m).Nodup

instance (m : GoMap α) : Decidable (WF m) := by unfold WF; infer_instance

/-- Lookup `m[k]`; `none` when the key is absent. -/
def get? : GoMap α → String → Option α
  | [], _ => none
  | (k', v) :: rest, k => if k' = k then some v else get? rest k

/-- Assignment `m[k] = v`: overwrite the entry of `k`, or add one. -/
def set : GoMap α → String → α → GoMap α
  | [], k, v => [(k, v)]
  | (k', v') :: rest, k, v =>
    if k' = k then (k, v) :: rest else (k', v') :: set rest k v

/-- Builtin `delete(m, k)`. -/
def delete (m : GoMap α) (k : String) : GoMap α := m.filter (fun p => p.1 ≠ k)

/-- Builtin `len(m)`. -/
def len (m : GoMap α) : Nat := m.length

end GoMap

/-! ## Logging -/

/-- Value of a zap field, for the constructors the workers use. -/
inductive FieldValue where
  | error (e : String)
  | uint (n : Nat)
  | int (n : Int)
  | string (s : String)
deriving DecidableEq, Repr

/-- One record handed to the zap logger. -/
structure LogRecord where
  level : String
  msg : String
  fields : List (String × FieldValue)
deriving DecidableEq, Repr

/-- Call `logger.Warn(msg, fields...)`. -/
def Warn (logger : List LogRecord) (msg : String) (fields : List (String × FieldValue)) :
    List LogRecord :=
  logger ++ [{ level := "warn", msg := msg, fields := fields }]

/-- Call `logger.Info(msg, fields...)`. -/
def Info (logger : List LogRecord) (msg : String) (fields : List (String × FieldValue)) :
    List LogRecord :=
  logger ++ [{ level := "info", msg := msg, fields := fields }]

/-- Call `logger.Debug(msg, fields...)`. -/
def Debug (logger : List LogRecord) (msg : String) (fields : List (String × FieldValue)) :
    List LogRecord :=
  logger ++ [{ level := "debug", msg := msg, fields := fields }]

/-- Call `logger.Error(msg, fields...)`. -/
def Error (logger : List LogRecord) (msg : String) (fields : List (String × FieldValue)) :
    List LogRecord :=
  logger ++ [{ level := "error", msg := msg, fields := fields }]

/-- Call `logger.Fatal(msg, fields...)`. After writing the record zap ends the
process; the list of records does not show that. -/
def Fatal (logger : List LogRecord) (msg : String) (fields : List (String × FieldValue)) :
    List LogRecord :=
  logger ++ [{ level := "fatal", msg := msg, fields := fields }]

/-- Field `zap.Error(err)`. -/
def zapError (err : String) : String × FieldValue := ("error", FieldValue.error err)

/-! ## Collaborators -/

/-- Interface `mailI`; `σ` is the private state of the implementation. -/
structure mailI (σ : Type) where
  SendMessage : σ → List Nat → Option String × σ

/-- Function `json.Marshal` restricted to `*models.EventCreate`: the bytes, or an error. -/
abbrev Marshaler := EventCreate → Except String (List Nat)

/-- One invocation of `SendMessage` during a scan: the key being visited, the
message passed and the error returned by `sendToMail`. -/
structure SinkCall where
  key : String
  msg : List Nat
  err : Option String
deriving DecidableEq, Repr

/-- The identity key `fmt.Sprintf("%s-%s", mail, event)`. -/
def sprintfKey (mail event : String) : String := mail ++ "-" ++ event

/-! ## internal/pkg/workers/notifier.go -/

/-- Struct `Notifier`: the pending-event store, the state of the value behind
`mail`, and the records written to `logger`. -/
structure Notifier (σ : Type) where
  store : GoMap EventCreate
  mail : σ
  logger : List LogRecord

/-- Locals of one pass of the `range n.store` loop, together with the sink
state, the logger and the list of `SendMessage` invocations made so far. -/
structure ScanState (σ : Type) where
  mail : σ
  logger : List LogRecord
  toDelete : List String
  calls : List SinkCall

namespace Notifier

variable {σ : Type}

/-- Method `(n *Notifier) sendToMail`. -/
def sendToMail (m : mailI σ) (s : σ) (msg : List Nat) : Option String × σ :=
  match m.SendMessage s msg with
  | (some mailErr, s') => (some ("failed to send notification to mail - " ++ mailErr), s')
  | (none, s') => (none, s')

/-- The window test `!event.Date.Before(now) && !event.Date.After(oneHourLater)`. -/
def due (now oneHourLater : Int) (event : EventCreate) : Prop :=
  ¬ event.Date < now ∧ ¬ event.Date > oneHourLater

instance (now oneHourLater : Int) (event : EventCreate) : Decidable (due now oneHourLater event) := by
  unfold due; infer_instance

/-- Body of `for key, event := range n.store`. -/
def visit (m : mailI σ) (marshal : Marshaler) (now oneHourLater : Int)
    (st : ScanState σ) (entry : String × EventCreate) : ScanState σ :=
  if due now oneHourLater entry.2 then
    let r : List Nat × List LogRecord :=
      match marshal entry.2 with
      | .ok evByte => (evByte, st.logger)
      | .error err => ([], Warn st.logger "worker.go - failed to marshal event" [zapError err])
    let s := sendToMail m st.mail r.1
    match s.1 with
    | some err =>
      { mail := s.2
        logger := Warn r.2 "worker.go - failed to send notification about event" [zapError err]
        toDelete := st.toDelete
        calls := st.calls ++ [{ key := entry.1, msg := r.1, err := some err }] }
    | none =>
      { mail := s.2
        logger := r.2
        toDelete := st.toDelete ++ [entry.1]
        calls := st.calls ++ [{ key := entry.1, msg := r.1, err := none }] }
  else st

/-- The `range n.store` loop, started with an empty `toDelete`. -/
def scanLoop (m : mailI σ) (marshal : Marshaler) (n : Notifier σ) (now : Int) : ScanState σ :=
  n.store.foldl (visit m marshal now (now + Hour))
    { mail := n.mail, logger := n.logger, toDelete := [], calls := [] }

/-- Branch `case <-ticker.C` of `Notifier.Run`, with `time.Now()` returning `now`:
the scan, then the deletions. Returns the notifier and the sink invocations. -/
def scanCycle (m : mailI σ) (marshal : Marshaler) (n : Notifier σ) (now : Int) :
    Notifier σ × List SinkCall :=
  let st := scanLoop m marshal n now
  ({ store := st.toDelete.foldl GoMap.delete n.store, mail := st.mail, logger := st.logger },
    st.calls)

/-- Branch `case event := <-n.EventsCh` of `Notifier.Run`. -/
def ingest (n : Notifier σ) (event : EventCreate) : Notifier σ :=
  let key := sprintfKey event.Mail event.Event
  { n with store := n.store.set key event }

end Notifier

/-! ## internal/pkg/worker/worker.go -/

/-- Struct `Worker`. -/
structure Worker (σ : Type) where
  store : GoMap EventCreate
  mail : σ
  logger : List LogRecord

namespace Worker

variable {σ : Type}

/-- Method `(w *Worker) sendToMail`. -/
def sendToMail (m : mailI σ) (s : σ) (msg : List Nat) : Option String × σ :=
  match m.SendMessage s msg with
  | (some mailErr, s') => (some ("failed to send notification to mail - " ++ mailErr), s')
  | (none, s') => (none, s')

/-- Body of `for key, event := range w.store`. -/
def visit (m : mailI σ) (marshal : Marshaler) (now oneHourLater : Int)
    (st : ScanState σ) (entry : String × EventCreate) : ScanState σ :=
  if ¬ entry.2.Date < now ∧ ¬ entry.2.Date > oneHourLater then
    let r : List Nat × List LogRecord :=
      match marshal entry.2 with
      | .ok evByte => (evByte, st.logger)
      | .error _ => ([], Warn st.logger "worker.go - failed to marshal event" [])
    let s := sendToMail m st.mail r.1
    match s.1 with
    | some err =>
      { mail := s.2
        logger := Warn r.2 "worker.go - failed to send notification about event" []
        toDelete := st.toDelete
        calls := st.calls ++ [{ key := entry.1, msg := r.1, err := some err }] }
    | none =>
      { mail := s.2
        logger := r.2
        toDelete := st.toDelete ++ [entry.1]
        calls := st.calls ++ [{ key := entry.1, msg := r.1, err := none }] }
  else st

/-- The `range w.store` loop, started with an empty `toDelete`. -/
def scanLoop (m : mailI σ) (marshal : Marshaler) (w : Worker σ) (now : Int) : ScanState σ :=
  w.store.foldl (visit m marshal now (now + Hour))
    { mail := w.mail, logger := w.logger, toDelete := [], calls := [] }

/-- Branch `case <-ticker.C` of `Worker.Run`, with `time.Now()` returning `now`. -/
def scanCycle (m : mailI σ) (marshal : Marshaler) (w : Worker σ) (now : Int) :
    Worker σ × List SinkCall :=
  let st := scanLoop m marshal w now
  ({ store := st.toDelete.foldl GoMap.delete w.store, mail := st.mail, logger := st.logger },
    st.calls)

/-- Branch `case event := <-w.EventsCh` of `Worker.Run`. -/
def ingest (w : Worker σ) (event : EventCreate) : Worker σ :=
  let key := sprintfKey event.Mail event.Event
  { w with store := w.store.set key event }

end Worker

/-! ## internal/pkg/workers/cleaner.go -/

/-- Interface `Repository`; `ρ` is the private state of the implementation.
`GetEventsToClean` returns the events or an error, `DeleteEvent` the pair
`(uint, error)`. -/
structure Repository (ρ : Type) where
  GetEventsToClean : ρ → Except String (List EventToClean) × ρ
  DeleteEvent : ρ → Nat → (Nat × Option String) × ρ

/-- Struct `Cleaner`. -/
structure Cleaner (ρ : Type) where
  repo : ρ
  storeArchive : GoMap EventCreate
  logger : List LogRecord

/-- State threaded through the `range events` loop, together with the ids
passed to `DeleteEvent` so far. -/
structure SweepState (ρ : Type) where
  repo : ρ
  storeArchive : GoMap EventCreate
  logger : List LogRecord
  deletes : List Nat

namespace Cleaner

variable {ρ : Type}

/-- The value stored in the archive for a fetched event. -/
def archived (event : EventToClean) : EventCreate :=
  { UserID := event.UserID, Event := event.Event, Date := event.Date, Mail := event.Mail }

/-- Body of `for _, event := range events`. -/
def visit (r : Repository ρ) (st : SweepState ρ) (event : EventToClean) : SweepState ρ :=
  let key := sprintfKey event.Mail event.Event
  let storeArchive := st.storeArchive.set key (archived event)
  let d := r.DeleteEvent st.repo event.ID
  match d.1.2 with
  | some err =>
    { repo := d.2
      storeArchive := storeArchive
      logger := Warn st.logger "failed to delete event from db"
        [zapError err, ("event_id", FieldValue.uint event.ID)]
      deletes := st.deletes ++ [event.ID] }
  | none =>
    { repo := d.2
      storeArchive := storeArchive
      logger := st.logger
      deletes := st.deletes ++ [event.ID] }

/-- Branch `case <-ticker.C` of `Cleaner.Run`. Returns the cleaner and the ids
passed to `DeleteEvent`, in call order. -/
def sweepCycle (r : Repository ρ) (c : Cleaner ρ) : Cleaner ρ × List Nat :=
  match r.GetEventsToClean c.repo with
  | (.error err, repo) =>
    ({ repo := repo
       storeArchive := c.storeArchive
       logger := Warn c.logger "failed to get events to clean" [zapError err] }, [])
  | (.ok events, repo) =>
    let st := events.foldl (visit r)
      { repo := repo, storeArchive := c.storeArchive, logger := c.logger, deletes := [] }
    ({ repo := st.repo
       storeArchive := st.storeArchive
       logger := Info st.logger "archived and deleted old events"
         [("count", FieldValue.int st.storeArchive.len)] }, st.deletes)

end Cleaner

/-! ## internal/pkg/workers/async_logger.go -/

namespace models

/-- Record `models.Log`. The `zap.Field` is its `Key` and its value. -/
structure Log where
  Msg : String
  Level : String
  Field : String × FieldValue
deriving DecidableEq, Repr

end models

/-- Struct `AsyncLogger`: the records handed to `logger`. -/
structure AsyncLogger where
  logger : List LogRecord
deriving DecidableEq, Repr

namespace AsyncLogger

/-- Method `(a *AsyncLogger) logWithLevel`; `none` is the nil pointer. The two
`switch` statements try their cases from top to bottom. -/
def logWithLevel (a : AsyncLogger) (logEntry : Option Log) : AsyncLogger :=
  match logEntry with
  | none => a
  | some logEntry =>
    if logEntry.Field.1 = "" then
      if logEntry.Level = "debug" then
        { logger := Debug a.logger logEntry.Msg [] }
      else if logEntry.Level = "info" then
        { logger := Info a.logger logEntry.Msg [] }
      else if logEntry.Level = "warn" ∨ logEntry.Level = "warning" then
        { logger := Warn a.logger logEntry.Msg [] }
      else if logEntry.Level = "error" then
        { logger := Error a.logger logEntry.Msg [] }
      else if logEntry.Level = "fatal" then
        { logger := Fatal a.logger logEntry.Msg [] }
      else
        { logger := Info a.logger logEntry.Msg [] }
    else
      if logEntry.Level = "debug" then
        { logger := Debug a.logger logEntry.Msg [logEntry.Field] }
      else if logEntry.Level = "info" then
        { logger := Info a.logger logEntry.Msg [logEntry.Field] }
      else if logEntry.Level = "warn" ∨ logEntry.Level = "warning" then
        { logger := Warn a.logger logEntry.Msg [logEntry.Field] }
      else if logEntry.Level = "error" then
        { logger := Error a.logger logEntry.Msg [logEntry.Field] }
      else if logEntry.Level = "fatal" then
        { logger := Fatal a.logger logEntry.Msg [logEntry.Field] }
      else
        { logger := Info a.logger logEntry.Msg [logEntry.Field] }

end AsyncLogger

/-! ## Vocabulary of the statements -/

namespace Notifier

/-- Bytes passed to `sendToMail` for an event: the output of `json.Marshal`,
or the nil slice when it fails. -/
def payload (marshal : Marshaler) (event : EventCreate) : List Nat :=
  match marshal event with
  | .ok evByte => evByte
  | .error _ => []

/-- Keys queued for deletion: those of the calls that returned no error. -/
def delivered (calls : List SinkCall) : List String :=
  (calls.filter (fun c => c.err = none)).map (fun c => c.key)

/-- What a call shows of the sink: the key visited, the message passed, and
whether the sink accepted it. -/
def outcome (c : SinkCall) : String × List Nat × Bool := (c.key, c.msg, c.err.isNone)

end Notifier

namespace Cleaner

/-- The archive after the assignments of the loop, taken in order. -/
def archiveAll (a : GoMap EventCreate) (events : List EventToClean) : GoMap EventCreate :=
  events.foldl (fun a e => a.set (sprintfKey e.Mail e.Event) (archived e)) a

/-- The warnings of a batch: `DeleteEvent` is applied to the id of each event
in turn, from the repository state `repo`, and every answer that carries an
error gives one record. -/
def deleteWarnings {ρ : Type} (r : Repository ρ) : ρ → List EventToClean → List LogRecord
  | _, [] => []
  | repo, e :: rest =>
    (match (r.DeleteEvent repo e.ID).1.2 with
      | some err =>
        [{ level := "warn", msg := "failed to delete event from db",
           fields := [zapError err, ("event_id", FieldValue.uint e.ID)] }]
      | none => []) ++ deleteWarnings r (r.DeleteEvent repo e.ID).2 rest

end Cleaner

/-- A log without the fields of its records: level and message only. -/
def bare (logger : List LogRecord) : List (String × String) :=
  logger.map (fun r => (r.level, r.msg))

/-- Two loop states that agree except for the fields of the log records. -/
def ScanState.agree {σ : Type} (a b : ScanState σ) : Prop :=
  a.mail = b.mail ∧ a.toDelete = b.toDelete ∧ a.calls = b.calls ∧ bare a.logger = bare b.logger

/-! ## Sample data -/

namespace Sample

/-- An event half an hour after the epoch. -/
def standup : EventCreate :=
  { UserID := 1, Event := "standup", Date := 1800000000000, Mail := "ann@x.io" }

/-- An event two hours after the epoch. -/
def review : EventCreate :=
  { UserID := 2, Event := "review", Date := 7200000000000, Mail := "bob@x.io" }

/-- An event exactly one hour after the epoch. -/
def lunch : EventCreate :=
  { UserID := 3, Event := "lunch", Date := 3600000000000, Mail := "cat@x.io" }

/-- A later version of `standup`, same mail and text. -/
def standupMoved : EventCreate :=
  { UserID := 1, Event := "standup", Date := 9000000000000, Mail := "ann@x.io" }

/-- A marshaler that always succeeds: the code points of the text. -/
def textBytes : Marshaler := fun e => .ok (e.Event.toList.map Char.toNat)

/-- A marshaler that always fails. -/
def failing : Marshaler := fun _ => .error "json: unsupported value"

/-- A sink that accepts every message. -/
def accept : mailI Unit := { SendMessage := fun s _ => (none, s) }

/-- A sink that refuses the message of `standup` and accepts every other one. -/
def refuseStandup : mailI Unit :=
  { SendMessage := fun s msg =>
      if msg = standup.Event.toList.map Char.toNat then (some "smtp: refused", s) else (none, s) }

/-- A notifier holding `standup`, `review` and `lunch`. -/
def notifier : Notifier Unit :=
  { store := [("ann@x.io-standup", standup), ("bob@x.io-review", review),
      ("cat@x.io-lunch", lunch)]
    mail := ()
    logger := [] }


/-- Three expired events. -/
def expired : List EventToClean :=
  [{ ID := 1, UserID := 10, Event := "gym", Date := 100, Mail := "ann@x.io", CreatedAt := 50 },
   { ID := 2, UserID := 11, Event := "call", Date := 200, Mail := "bob@x.io", CreatedAt := 60 },
   { ID := 3, UserID := 12, Event := "trip", Date := 300, Mail := "cat@x.io", CreatedAt := 70 }]

/-- A repository that returns `expired` and fails to delete the event of id 2. -/
def secondDeleteFails : Repository Unit :=
  { GetEventsToClean := fun s => (.ok expired, s)
    DeleteEvent := fun s id => if id = 2 then ((0, some "db: locked"), s) else ((id, none), s) }

/-- A repository whose state is the list of the ids it was asked to delete; it
returns `expired` and fails to delete the event of id 2. -/
def recording : Repository (List Nat) :=
  { GetEventsToClean := fun s => (.ok expired, s)
    DeleteEvent := fun s id =>
      if id = 2 then ((0, some "db: locked"), s ++ [id]) else ((id, none), s ++ [id]) }

/-- A cleaner over `recording` that has deleted nothing yet. -/
def recordingCleaner : Cleaner (List Nat) :=
  { repo := []
    storeArchive :=
      [("dan@x.io-exam", { UserID := 9, Event := "exam", Date := 5, Mail := "dan@x.io" })]
    logger := [] }

/-- A repository whose fetch fails. -/
def fetchFails : Repository Unit :=
  { GetEventsToClean := fun s => (.error "db: down", s)
    DeleteEvent := fun s id => ((id, none), s) }

/-- A repository that returns the given events and deletes without error. -/
def fetching (events : List EventToClean) : Repository Unit :=
  { GetEventsToClean := fun s => (.ok events, s)
    DeleteEvent := fun s id => ((id, none), s) }

/-- A cleaner whose archive holds one entry. -/
def cleaner : Cleaner Unit :=
  { repo := ()
    storeArchive :=
      [("dan@x.io-exam", { UserID := 9, Event := "exam", Date := 5, Mail := "dan@x.io" })]
    logger := [] }

/-- An expired event. -/
def gym : EventToClean :=
  { ID := 1, UserID := 10, Event := "gym", Date := 100, Mail := "ann@x.io", CreatedAt := 50 }

/-- The event `gym` under another record id and creation time. -/
def gymAgain : EventToClean :=
  { ID := 7, UserID := 10, Event := "gym", Date := 100, Mail := "ann@x.io", CreatedAt := 60 }

/-- An event whose mail contains a dash. -/
def dashInMail : EventCreate :=
  { UserID := 4, Event := "c", Date := 1800000000000, Mail := "a-b" }

/-- An event whose text contains a dash. -/
def dashInText : EventCreate :=
  { UserID := 5, Event := "b-c", Date := 7200000000000, Mail := "a" }

/-- A notifier with an empty store. -/
def idle : Notifier Unit := { store := [], mail := (), logger := [] }

/-- The store of `notifier`, visited in the opposite order. -/
def backwards : GoMap EventCreate :=
  [("cat@x.io-lunch", lunch), ("bob@x.io-review", review), ("ann@x.io-standup", standup)]

/-- Whether `refuseStandup` accepts a message. -/
def acceptsAllButStandup (msg : List Nat) : Bool :=
  !decide (msg = standup.Event.toList.map Char.toNat)

/-- A log entry of level `warning` with a field. -/
def badMethod : Log :=
  { Msg := "not allowed methods", Level := "warning", Field := ("method", FieldValue.string "PUT") }

/-- A log entry of an unknown level without a field. -/
def shout : Log :=
  { Msg := "event created", Level := "LOUD", Field := ("", FieldValue.string "") }

end Sample

/-! ## Properties of Go maps -/

namespace GoMap

variable {α : Type}

theorem mem_keys {m : GoMap α} {k : String} : k ∈ keys m ↔ ∃ v, (k, v) ∈ m := by
  simp [keys]

theorem WF.tail {p : String × α} {m : GoMap α} (h : WF (p :: m)) : WF m := by
  unfold WF keys at *
  exact (List.nodup_cons.mp h).2

theorem WF.head {p : String × α} {m : GoMap α} (h : WF (p :: m)) : p.1 ∉ keys m := by
  unfold WF keys at *
  exact (List.nodup_cons.mp h).1

/-- In a well-formed map a key has one value. -/
theorem WF.unique {m : GoMap α} (h : WF m) {k : String} {v v' : α}
    (hv : (k, v) ∈ m) (hv' : (k, v') ∈ m) : v = v' := by
  induction m with
  | nil => simp at hv
  | cons p rest ih =>
    have hh := h.head
    rcases List.mem_cons.mp hv with e | e <;> rcases List.mem_cons.mp hv' with e' | e'
    · have := e.trans e'.symm
      exact (Prod.mk.inj this).2
    · exact absurd (mem_keys.mpr ⟨v', e'⟩) (by rw [← e] at hh; exact hh)
    · exact absurd (mem_keys.mpr ⟨v, e⟩) (by rw [← e'] at hh; exact hh)
    · exact ih h.tail e e'

theorem get?_eq_some_of_mem {m : GoMap α} (h : WF m) {k : String} {v : α}
    (hv : (k, v) ∈ m) : get? m k = some v := by
  induction m with
  | nil => simp at hv
  | cons p rest ih =>
    obtain ⟨k', v'⟩ := p
    rcases List.mem_cons.mp hv with e | e
    · cases e
      simp [get?]
    · have hne : k' ≠ k := by
        intro hk
        have := h.head
        exact this (by simpa [hk] using mem_keys.mpr ⟨v, e⟩)
      simp [get?, hne, ih h.tail e]

theorem mem_of_get?_eq_some {m : GoMap α} {k : String} {v : α}
    (h : get? m k = some v) : (k, v) ∈ m := by
  induction m with
  | nil => simp [get?] at h
  | cons p rest ih =>
    obtain ⟨k', v'⟩ := p
    by_cases hk : k' = k
    · simp [get?, hk] at h
      simp [hk, h]
    · simp [get?, hk] at h
      exact List.mem_cons_of_mem _ (ih h)

theorem get?_eq_none_iff {m : GoMap α} {k : String} : get? m k = none ↔ k ∉ keys m := by
  induction m with
  | nil => simp [get?, keys]
  | cons p rest ih =>
    obtain ⟨k', v'⟩ := p
    by_cases hk : k' = k
    · simp [get?, hk, keys]
    · have hk' : ¬ k = k' := fun e => hk e.symm
      simp [get?, hk, hk', keys] at *
      exact ih

theorem keys_set (m : GoMap α) (k : String) (v : α) :
    keys (set m k v) = if k ∈ keys m then keys m else keys m ++ [k] := by
  induction m with
  | nil => simp [set, keys]
  | cons p rest ih =>
    obtain ⟨k', v'⟩ := p
    by_cases hk : k' = k
    · simp [set, hk, keys]
    · have hk' : ¬ k = k' := fun e => hk e.symm
      simp only [set, hk, if_false]
      simp only [keys, List.map_cons, List.mem_cons, hk', false_or] at *
      rw [ih]
      split <;> simp

theorem mem_keys_set {m : GoMap α} {k k' : String} {v : α} :
    k' ∈ keys (set m k v) ↔ k' = k ∨ k' ∈ keys m := by
  rw [keys_set]
  split
  · constructor
    · exact Or.inr
    · rintro (rfl | h)
      · assumption
      · exact h
  · simp [or_comm]

theorem WF.set {m : GoMap α} (h : WF m) (k : String) (v : α) : WF (set m k v) := by
  unfold WF at *
  rw [keys_set]
  split
  · exact h
  · rename_i hk
    exact List.Nodup.append h (List.nodup_singleton k) (by simpa using hk)

theorem get?_set_self (m : GoMap α) (k : String) (v : α) : get? (set m k v) k = some v := by
  induction m with
  | nil => simp [set, get?]
  | cons p rest ih =>
    obtain ⟨k', v'⟩ := p
    by_cases hk : k' = k
    · simp [set, hk, get?]
    · simp [set, hk, get?, ih]

theorem get?_set_other (m : GoMap α) {k k' : String} (v : α) (h : k' ≠ k) :
    get? (set m k v) k' = get? m k' := by
  induction m with
  | nil => simp [set, get?, h.symm]
  | cons p rest ih =>
    obtain ⟨k₀, v₀⟩ := p
    by_cases hk : k₀ = k
    · subst hk
      simp [set, get?, h.symm]
    · by_cases hk' : k₀ = k'
      · subst hk'
        simp [set, hk, get?]
      · simp [set, hk, get?, hk', ih]

/-- Entries stored under `k` after `m[k] = v`, in a well-formed map. -/
theorem filter_key_set {m : GoMap α} (h : WF m) (k : String) (v : α) :
    (set m k v).filter (fun p => p.1 = k) = [(k, v)] := by
  induction m with
  | nil => simp [set]
  | cons p rest ih =>
    obtain ⟨k', v'⟩ := p
    by_cases hk : k' = k
    · subst hk
      have hh : k' ∉ keys rest := h.head
      have : rest.filter (fun p => p.1 = k') = [] := by
        rw [List.filter_eq_nil_iff]
        intro p hp
        obtain ⟨a, b⟩ := p
        have : a ≠ k' := fun e => hh (mem_keys.mpr ⟨b, by rw [← e]; exact hp⟩)
        simpa using this
      simp [set, this]
    · simp [set, hk, ih h.tail]

/-- Deleting a list of keys one after the other keeps the entries whose key is
not in the list. -/
theorem foldl_delete (ks : List String) (m : GoMap α) :
    ks.foldl delete m = m.filter (fun p => p.1 ∉ ks) := by
  induction ks generalizing m with
  | nil => simp
  | cons k ks ih =>
    simp only [List.foldl_cons, ih, delete, List.filter_filter]
    congr 1
    funext p
    simp [Bool.and_comm, eq_comm]

end GoMap

/-! ## The scan loop of the notifier -/

namespace Notifier

variable {σ : Type}

/-- The window test, as inequalities. -/
theorem due_iff (now : Int) (event : EventCreate) :
    due now (now + Hour) event ↔ now ≤ event.Date ∧ event.Date ≤ now + Hour := by
  unfold due
  constructor <;> rintro ⟨h₁, h₂⟩ <;> exact ⟨by omega, by omega⟩

theorem visit_of_not_due (m : mailI σ) (marshal : Marshaler) {now later : Int}
    (st : ScanState σ) {entry : String × EventCreate} (h : ¬ due now later entry.2) :
    visit m marshal now later st entry = st := by
  simp [visit, h]

/-- A visited entry inside the window makes one call, with the payload of the
entry, and is queued for deletion exactly when the call returns no error. -/
theorem visit_of_due (m : mailI σ) (marshal : Marshaler) {now later : Int}
    (st : ScanState σ) {entry : String × EventCreate} (h : due now later entry.2) :
    (visit m marshal now later st entry).calls = st.calls ++
        [{ key := entry.1, msg := payload marshal entry.2,
           err := (sendToMail m st.mail (payload marshal entry.2)).1 }] ∧
      (visit m marshal now later st entry).toDelete = st.toDelete ++
        (if (sendToMail m st.mail (payload marshal entry.2)).1 = none then [entry.1] else []) ∧
      (visit m marshal now later st entry).mail =
        (sendToMail m st.mail (payload marshal entry.2)).2 := by
  unfold visit payload
  rw [if_pos h]
  cases hm : marshal entry.2 <;> simp only [] <;>
    cases hs : (sendToMail m st.mail _).1 <;> simp [hs]

/-- Summary of a run of the loop body over a list of entries. -/
theorem foldl_visit (m : mailI σ) (marshal : Marshaler) (now later : Int)
    (l : List (String × EventCreate)) (st : ScanState σ) :
    ∃ cs : List SinkCall,
      (l.foldl (visit m marshal now later) st).calls = st.calls ++ cs ∧
      (l.foldl (visit m marshal now later) st).toDelete =
        st.toDelete ++ (cs.filter (fun c => c.err = none)).map (fun c => c.key) ∧
      List.Forall₂ (fun c p => c.key = p.1 ∧ c.msg = payload marshal p.2) cs
        (l.filter (fun p => due now later p.2)) := by
  induction l generalizing st with
  | nil => exact ⟨[], by simp⟩
  | cons p rest ih =>
    rw [List.foldl_cons]
    by_cases h : due now later p.2
    · obtain ⟨hc, hd, -⟩ := visit_of_due m marshal st h
      obtain ⟨cs, h₁, h₂, h₃⟩ := ih (visit m marshal now later st p)
      refine ⟨{ key := p.1, msg := payload marshal p.2,
                err := (sendToMail m st.mail (payload marshal p.2)).1 } :: cs, ?_, ?_, ?_⟩
      · rw [h₁, hc, List.append_assoc]; rfl
      · rw [h₂, hd, List.append_assoc]
        congr 1
        by_cases he : (sendToMail m st.mail (payload marshal p.2)).1 = none
        · simp [he]
        · simp [he]
      · rw [List.filter_cons_of_pos (by simpa using h)]
        exact List.Forall₂.cons ⟨rfl, rfl⟩ h₃
    · rw [visit_of_not_due m marshal st h]
      obtain ⟨cs, h₁, h₂, h₃⟩ := ih st
      refine ⟨cs, h₁, h₂, ?_⟩
      rw [List.filter_cons_of_neg (by simpa using h)]
      exact h₃

/-- Summary of one scan cycle: the calls follow the entries inside the window,
and the store keeps the entries whose key was not delivered. -/
theorem scanCycle_summary (m : mailI σ) (marshal : Marshaler) (n : Notifier σ) (now : Int) :
    (scanCycle m marshal n now).1.store =
        n.store.filter (fun p => p.1 ∉ delivered (scanCycle m marshal n now).2) ∧
      List.Forall₂ (fun c p => c.key = p.1 ∧ c.msg = payload marshal p.2)
        (scanCycle m marshal n now).2
        (n.store.filter (fun p => due now (now + Hour) p.2)) := by
  obtain ⟨cs, h₁, h₂, h₃⟩ := foldl_visit m marshal now (now + Hour) n.store
    { mail := n.mail, logger := n.logger, toDelete := [], calls := [] }
  simp only [List.nil_append] at h₁ h₂
  simp only [scanCycle, scanLoop, GoMap.foldl_delete, delivered]
  rw [h₁, h₂]
  exact ⟨rfl, h₃⟩

theorem keys_of_forall₂ {marshal : Marshaler} {cs : List SinkCall}
    {l : List (String × EventCreate)}
    (h : List.Forall₂ (fun c p => c.key = p.1 ∧ c.msg = payload marshal p.2) cs l) :
    cs.map (fun c => c.key) = l.map Prod.fst := by
  induction h with
  | nil => rfl
  | cons hd _ ih => simp [hd.1, ih]

theorem mem_of_forall₂ {marshal : Marshaler} {cs : List SinkCall}
    {l : List (String × EventCreate)}
    (h : List.Forall₂ (fun c p => c.key = p.1 ∧ c.msg = payload marshal p.2) cs l)
    {c : SinkCall} (hc : c ∈ cs) : ∃ e, (c.key, e) ∈ l ∧ c.msg = payload marshal e := by
  induction h with
  | nil => simp at hc
  | @cons c' p cs' l' hd _ ih =>
    rcases List.mem_cons.mp hc with e | e
    · subst e
      exact ⟨p.2, by rw [hd.1]; exact List.mem_cons_self _ _, hd.2⟩
    · obtain ⟨e', h₁, h₂⟩ := ih e
      exact ⟨e', List.mem_cons_of_mem _ h₁, h₂⟩

/-- Number of calls made for a key, read off the keys of the calls. -/
theorem length_filter_key (cs : List SinkCall) (k : String) :
    (cs.filter (fun c => c.key = k)).length = (cs.map (fun c => c.key)).count k := by
  induction cs with
  | nil => rfl
  | cons c cs ih =>
    by_cases h : c.key = k
    · simp [List.filter_cons, h, ih]
    · simp [List.filter_cons, h, ih, List.count_cons]

/-- In a well-formed store, the key of an entry is among the keys of the due
entries exactly when that entry is due. -/
theorem mem_due_keys {store : GoMap EventCreate} (hwf : store.WF) (now later : Int)
    {k : String} {e : EventCreate} (hmem : (k, e) ∈ store) :
    k ∈ (store.filter (fun p => due now later p.2)).map Prod.fst ↔ due now later e := by
  constructor
  · intro h
    obtain ⟨p, hp, hk⟩ := List.mem_map.mp h
    obtain ⟨hp₁, hp₂⟩ := List.mem_filter.mp hp
    obtain ⟨k', e'⟩ := p
    simp only at hk
    subst hk
    have := hwf.unique hp₁ hmem
    subst this
    simpa using hp₂
  · intro h
    exact List.mem_map.mpr ⟨(k, e), List.mem_filter.mpr ⟨hmem, by simpa using h⟩, rfl⟩

theorem nodup_due_keys {store : GoMap EventCreate} (hwf : store.WF) (now later : Int) :
    ((store.filter (fun p => due now later p.2)).map Prod.fst).Nodup :=
  List.Nodup.sublist ((List.filter_sublist store).map Prod.fst) hwf

/-- The keys of the calls of a scan cycle. -/
theorem scanCycle_call_keys (m : mailI σ) (marshal : Marshaler) (n : Notifier σ) (now : Int) :
    (scanCycle m marshal n now).2.map (fun c => c.key) =
      (n.store.filter (fun p => due now (now + Hour) p.2)).map Prod.fst :=
  keys_of_forall₂ (scanCycle_summary m marshal n now).2

/-- In a well-formed store two calls of one scan cycle with the same key are
the same call. -/
theorem scanCycle_call_unique (m : mailI σ) (marshal : Marshaler) (n : Notifier σ) (now : Int)
    (hwf : n.store.WF) {c c' : SinkCall} (hc : c ∈ (scanCycle m marshal n now).2)
    (hc' : c' ∈ (scanCycle m marshal n now).2) (hk : c.key = c'.key) : c = c' := by
  have hnd : ((scanCycle m marshal n now).2.map (fun c => c.key)).Nodup := by
    rw [scanCycle_call_keys]
    exact nodup_due_keys hwf now (now + Hour)
  exact List.inj_on_of_nodup_map hnd hc hc' hk

/-- Keys of the store after a scan cycle. -/
theorem mem_keys_scanCycle (m : mailI σ) (marshal : Marshaler) (n : Notifier σ) (now : Int)
    (k : String) :
    k ∈ GoMap.keys (scanCycle m marshal n now).1.store ↔
      k ∈ GoMap.keys n.store ∧ k ∉ delivered (scanCycle m marshal n now).2 := by
  rw [(scanCycle_summary m marshal n now).1]
  simp only [GoMap.keys, List.mem_map, List.mem_filter]
  constructor
  · rintro ⟨p, ⟨hp, hd⟩, rfl⟩
    exact ⟨⟨p, hp, rfl⟩, by simpa using hd⟩
  · rintro ⟨⟨p, hp, rfl⟩, hd⟩
    exact ⟨p, ⟨hp, by simpa using hd⟩, rfl⟩

theorem mem_delivered {calls : List SinkCall} {k : String} :
    k ∈ delivered calls ↔ ∃ c ∈ calls, c.key = k ∧ c.err = none := by
  simp only [delivered, List.mem_map, List.mem_filter]
  constructor
  · rintro ⟨c, ⟨hc, he⟩, rfl⟩
    exact ⟨c, hc, rfl, by simpa using he⟩
  · rintro ⟨c, hc, rfl, he⟩
    exact ⟨c, ⟨hc, by simpa using he⟩, rfl⟩

end Notifier

/-! ## Claims about the notifier -/

/-- C1: in a store with one entry per key, one scan cycle at time `now` calls
the sink exactly once for an entry whose date `t` satisfies
`now ≤ t ≤ now + Hour`, and not at all for any other entry; a call made for an
entry carries the payload of that entry. -/
theorem scan_calls_sink_once_iff_in_window {σ : Type} (m : mailI σ) (marshal : Marshaler)
    (n : Notifier σ) (now : Int) (k : String) (e : EventCreate)
    (hwf : n.store.WF) (hmem : (k, e) ∈ n.store) :
    ((Notifier.scanCycle m marshal n now).2.filter (fun c => c.key = k)).length =
        (if now ≤ e.Date ∧ e.Date ≤ now + Hour then 1 else 0) ∧
      ∀ c ∈ (Notifier.scanCycle m marshal n now).2, c.key = k →
        c.msg = Notifier.payload marshal e := by
  constructor
  · rw [Notifier.length_filter_key, Notifier.scanCycle_call_keys,
      List.count_eq_of_nodup (Notifier.nodup_due_keys hwf now (now + Hour))]
    simp only [Notifier.mem_due_keys hwf now (now + Hour) hmem]
    simp only [Notifier.due_iff]
  · intro c hc hk
    obtain ⟨e', h₁, h₂⟩ := Notifier.mem_of_forall₂ (Notifier.scanCycle_summary m marshal n now).2 hc
    rw [hk] at h₁
    have := hwf.unique (List.mem_of_mem_filter h₁) hmem
    rw [h₂, this]

theorem scan_calls_sink_once_iff_in_window_witness :
    Sample.notifier.store.WF ∧ ("ann@x.io-standup", Sample.standup) ∈ Sample.notifier.store ∧
      (((Notifier.scanCycle Sample.accept Sample.textBytes Sample.notifier 0).2.filter
          (fun c => c.key = "ann@x.io-standup")).length =
          (if (0 : Int) ≤ Sample.standup.Date ∧ Sample.standup.Date ≤ 0 + Hour then 1 else 0) ∧
        ∀ c ∈ (Notifier.scanCycle Sample.accept Sample.textBytes Sample.notifier 0).2,
          c.key = "ann@x.io-standup" →
            c.msg = Notifier.payload Sample.textBytes Sample.standup) :=
  ⟨by decide, by decide,
    scan_calls_sink_once_iff_in_window Sample.accept Sample.textBytes Sample.notifier 0
      "ann@x.io-standup" Sample.standup (by decide) (by decide)⟩

/-- C2: in a store with one entry per key, after one scan cycle a key is in the
store iff it was there before and it is not the case that its event was inside
the window and its call to the sink returned no error. In particular, when the
call for an in-window key `K` failed and the call for an in-window key `J`
succeeded, `K` is still in the store and `J` is not. -/
theorem scan_evicts_iff_delivered {σ : Type} (m : mailI σ) (marshal : Marshaler)
    (n : Notifier σ) (now : Int) (hwf : n.store.WF) :
    (∀ k, k ∈ GoMap.keys (Notifier.scanCycle m marshal n now).1.store ↔
        k ∈ GoMap.keys n.store ∧
          ¬ ∃ e, (k, e) ∈ n.store ∧ (now ≤ e.Date ∧ e.Date ≤ now + Hour) ∧
            ∃ c ∈ (Notifier.scanCycle m marshal n now).2, c.key = k ∧ c.err = none) ∧
      ∀ K J eK eJ, (K, eK) ∈ n.store → (J, eJ) ∈ n.store →
        (now ≤ eK.Date ∧ eK.Date ≤ now + Hour) → (now ≤ eJ.Date ∧ eJ.Date ≤ now + Hour) →
        (∃ c ∈ (Notifier.scanCycle m marshal n now).2, c.key = K ∧ c.err ≠ none) →
        (∃ c ∈ (Notifier.scanCycle m marshal n now).2, c.key = J ∧ c.err = none) →
        K ∈ GoMap.keys (Notifier.scanCycle m marshal n now).1.store ∧
          J ∉ GoMap.keys (Notifier.scanCycle m marshal n now).1.store := by
  constructor
  · intro k
    rw [Notifier.mem_keys_scanCycle, Notifier.mem_delivered]
    refine and_congr_right (fun _ => not_congr ?_)
    constructor
    · rintro ⟨c, hc, hk, he⟩
      obtain ⟨e, h₁, -⟩ :=
        Notifier.mem_of_forall₂ (Notifier.scanCycle_summary m marshal n now).2 hc
      obtain ⟨h₂, h₃⟩ := List.mem_filter.mp h₁
      rw [hk] at h₂
      exact ⟨e, h₂, (Notifier.due_iff now e).mp (by simpa using h₃), c, hc, hk, he⟩
    · rintro ⟨_, _, _, h⟩
      exact h
  · rintro K J eK eJ hK hJ - - ⟨c, hc, hcK, hce⟩ hJd
    constructor
    · rw [Notifier.mem_keys_scanCycle, Notifier.mem_delivered]
      refine ⟨GoMap.mem_keys.mpr ⟨eK, hK⟩, ?_⟩
      rintro ⟨c', hc', hcK', hce'⟩
      have := Notifier.scanCycle_call_unique m marshal n now hwf hc hc' (hcK.trans hcK'.symm)
      rw [this] at hce
      exact hce hce'
    · rw [Notifier.mem_keys_scanCycle, Notifier.mem_delivered]
      exact fun h => h.2 hJd

theorem scan_evicts_iff_delivered_witness :
    Sample.notifier.store.WF ∧
      ("ann@x.io-standup" ∈
          GoMap.keys (Notifier.scanCycle Sample.refuseStandup Sample.textBytes
            Sample.notifier 0).1.store ∧
        "cat@x.io-lunch" ∉
          GoMap.keys (Notifier.scanCycle Sample.refuseStandup Sample.textBytes
            Sample.notifier 0).1.store) :=
  ⟨by decide,
    (scan_evicts_iff_delivered Sample.refuseStandup Sample.textBytes Sample.notifier 0
      (by decide)).2 "ann@x.io-standup" "cat@x.io-lunch" Sample.standup Sample.lunch
      (by decide) (by decide) (by decide) (by decide)
      ⟨{ key := "ann@x.io-standup", msg := Sample.standup.Event.toList.map Char.toNat,
         err := some "failed to send notification to mail - smtp: refused" },
        by decide, rfl, by decide⟩
      ⟨{ key := "cat@x.io-lunch", msg := Sample.lunch.Event.toList.map Char.toNat,
         err := none }, by decide, rfl, rfl⟩⟩

/-- C8: in a store with one entry per key, an entry whose date lies strictly
outside the window (`t < now` or `t > now + Hour`) has the same key and value
after the scan cycle, and the scan cycle adds no key. -/
theorem scan_frame_outside_window {σ : Type} (m : mailI σ) (marshal : Marshaler)
    (n : Notifier σ) (now : Int) (hwf : n.store.WF) :
    (∀ k e, (k, e) ∈ n.store → (e.Date < now ∨ e.Date > now + Hour) →
        (k, e) ∈ (Notifier.scanCycle m marshal n now).1.store ∧
          GoMap.get? (Notifier.scanCycle m marshal n now).1.store k = some e) ∧
      ∀ k, k ∈ GoMap.keys (Notifier.scanCycle m marshal n now).1.store →
        k ∈ GoMap.keys n.store := by
  constructor
  · intro k e hmem hout
    have hnd : k ∉ Notifier.delivered (Notifier.scanCycle m marshal n now).2 := by
      rw [Notifier.mem_delivered]
      rintro ⟨c, hc, hk, -⟩
      obtain ⟨e', h₁, -⟩ :=
        Notifier.mem_of_forall₂ (Notifier.scanCycle_summary m marshal n now).2 hc
      obtain ⟨h₂, h₃⟩ := List.mem_filter.mp h₁
      rw [hk] at h₂
      have := hwf.unique h₂ hmem
      subst this
      have hd := (Notifier.due_iff now e').mp (by simpa using h₃)
      omega
    have hwf' : GoMap.WF (Notifier.scanCycle m marshal n now).1.store := by
      rw [(Notifier.scanCycle_summary m marshal n now).1]
      exact List.Nodup.sublist ((List.filter_sublist n.store).map Prod.fst) hwf
    have hmem' : (k, e) ∈ (Notifier.scanCycle m marshal n now).1.store := by
      rw [(Notifier.scanCycle_summary m marshal n now).1]
      exact List.mem_filter.mpr ⟨hmem, by simpa using hnd⟩
    exact ⟨hmem', GoMap.get?_eq_some_of_mem hwf' hmem'⟩
  · intro k hk
    exact ((Notifier.mem_keys_scanCycle m marshal n now k).mp hk).1

theorem scan_frame_outside_window_witness :
    Sample.notifier.store.WF ∧ ("bob@x.io-review", Sample.review) ∈ Sample.notifier.store ∧
      (Sample.review.Date < 0 ∨ Sample.review.Date > 0 + Hour) ∧
      (("bob@x.io-review", Sample.review) ∈
          (Notifier.scanCycle Sample.accept Sample.textBytes Sample.notifier 0).1.store ∧
        GoMap.get? (Notifier.scanCycle Sample.accept Sample.textBytes Sample.notifier 0).1.store
          "bob@x.io-review" = some Sample.review) :=
  ⟨by decide, by decide, by decide,
    (scan_frame_outside_window Sample.accept Sample.textBytes Sample.notifier 0
      (by decide)).1 "bob@x.io-review" Sample.review (by decide) (by decide)⟩

/-- C3: in a store with one entry per key, ingesting `A` and then `B`, where
`A` and `B` have the same mail and the same text, leaves exactly one entry under
their key, that entry is `B`, and the keys (and their number) are those of the
store after ingesting `A` alone. -/
theorem ingest_twice_overwrites {σ : Type} (n : Notifier σ) (A B : EventCreate)
    (hwf : n.store.WF) (hm : A.Mail = B.Mail) (he : A.Event = B.Event) :
    ((n.ingest A).ingest B).store.filter (fun p => p.1 = sprintfKey B.Mail B.Event) =
        [(sprintfKey B.Mail B.Event, B)] ∧
      GoMap.get? ((n.ingest A).ingest B).store (sprintfKey B.Mail B.Event) = some B ∧
      (∀ k, k ∈ GoMap.keys ((n.ingest A).ingest B).store ↔
        k ∈ GoMap.keys (n.ingest A).store) ∧
      GoMap.len ((n.ingest A).ingest B).store = GoMap.len (n.ingest A).store := by
  have hkeys : GoMap.keys ((n.ingest A).ingest B).store = GoMap.keys (n.ingest A).store := by
    simp only [Notifier.ingest, hm, he]
    rw [GoMap.keys_set (GoMap.set n.store _ A) _ B, if_pos]
    exact GoMap.mem_keys_set.mpr (Or.inl rfl)
  refine ⟨?_, ?_, ?_, ?_⟩
  · exact GoMap.filter_key_set (hwf.set _ _) _ _
  · exact GoMap.get?_set_self _ _ _
  · intro k
    rw [hkeys]
  · have := congrArg List.length hkeys
    simpa [GoMap.keys, GoMap.len] using this

theorem ingest_twice_overwrites_witness :
    Sample.notifier.store.WF ∧ Sample.standup.Mail = Sample.standupMoved.Mail ∧
      Sample.standup.Event = Sample.standupMoved.Event ∧
      ((Sample.notifier.ingest Sample.standup).ingest Sample.standupMoved).store.filter
          (fun p => p.1 = sprintfKey Sample.standupMoved.Mail Sample.standupMoved.Event) =
        [(sprintfKey Sample.standupMoved.Mail Sample.standupMoved.Event, Sample.standupMoved)] :=
  ⟨by decide, rfl, rfl,
    (ingest_twice_overwrites Sample.notifier Sample.standup Sample.standupMoved
      (by decide) rfl rfl).1⟩

/-- C6 at a failing input: the only entry is inside the window, `json.Marshal`
fails for it, and the sink accepts the nil message it is then handed; the entry
is gone after the scan cycle. -/
theorem marshal_failure_entry_evicted :
    (0 : Int) ≤ Sample.standup.Date ∧ Sample.standup.Date ≤ 0 + Hour ∧
      (Sample.failing Sample.standup).toBool = false ∧
      (Notifier.scanCycle Sample.accept Sample.failing
        { store := [("ann@x.io-standup", Sample.standup)], mail := (), logger := [] } 0).2 =
          [{ key := "ann@x.io-standup", msg := [], err := none }] ∧
      (Notifier.scanCycle Sample.accept Sample.failing
        { store := [("ann@x.io-standup", Sample.standup)], mail := (), logger := [] } 0).1.store =
          [] := by
  decide

/-! ## The sweep loop of the cleaner -/

namespace Cleaner

variable {ρ : Type}

theorem visit_storeArchive (r : Repository ρ) (st : SweepState ρ) (event : EventToClean) :
    (visit r st event).storeArchive =
      st.storeArchive.set (sprintfKey event.Mail event.Event) (archived event) := by
  simp only [visit]
  split <;> rfl

theorem visit_deletes (r : Repository ρ) (st : SweepState ρ) (event : EventToClean) :
    (visit r st event).deletes = st.deletes ++ [event.ID] := by
  simp only [visit]
  split <;> rfl

/-- Summary of the loop: every event is archived and its id passed to
`DeleteEvent`, in order, whatever the deletes return. -/
theorem foldl_sweep_visit (r : Repository ρ) (events : List EventToClean) (st : SweepState ρ) :
    (events.foldl (visit r) st).storeArchive = archiveAll st.storeArchive events ∧
      (events.foldl (visit r) st).deletes = st.deletes ++ events.map (fun e => e.ID) := by
  induction events generalizing st with
  | nil => simp [archiveAll]
  | cons e rest ih =>
    obtain ⟨h₁, h₂⟩ := ih (visit r st e)
    rw [List.foldl_cons, h₁, h₂, visit_storeArchive, visit_deletes]
    simp [archiveAll]

theorem sweepCycle_of_ok (r : Repository ρ) (c : Cleaner ρ) {events : List EventToClean}
    {repo : ρ} (h : r.GetEventsToClean c.repo = (.ok events, repo)) :
    (sweepCycle r c).1.storeArchive = archiveAll c.storeArchive events ∧
      (sweepCycle r c).2 = events.map (fun e => e.ID) := by
  unfold sweepCycle
  rw [h]
  simp only []
  have := foldl_sweep_visit r events
    { repo := repo, storeArchive := c.storeArchive, logger := c.logger, deletes := [] }
  exact ⟨this.1, by simpa using this.2⟩

theorem visit_repo (r : Repository ρ) (st : SweepState ρ) (event : EventToClean) :
    (visit r st event).repo = (r.DeleteEvent st.repo event.ID).2 := by
  simp only [visit]
  split <;> rfl

theorem visit_logger (r : Repository ρ) (st : SweepState ρ) (event : EventToClean) :
    (visit r st event).logger = st.logger ++ deleteWarnings r st.repo [event] := by
  simp only [visit, deleteWarnings]
  split <;> rename_i h <;> simp [h, Warn]

theorem deleteWarnings_cons (r : Repository ρ) (repo : ρ) (e : EventToClean)
    (rest : List EventToClean) :
    deleteWarnings r repo (e :: rest) =
      deleteWarnings r repo [e] ++ deleteWarnings r (r.DeleteEvent repo e.ID).2 rest := by
  simp [deleteWarnings]

theorem deleteWarnings_append (r : Repository ρ) (repo : ρ) (xs ys : List EventToClean) :
    deleteWarnings r repo (xs ++ ys) = deleteWarnings r repo xs ++
      deleteWarnings r (xs.foldl (fun s e => (r.DeleteEvent s e.ID).2) repo) ys := by
  induction xs generalizing repo with
  | nil => simp [deleteWarnings]
  | cons x xs ih =>
    rw [List.cons_append, deleteWarnings_cons, ih, deleteWarnings_cons r repo x xs,
      List.foldl_cons, List.append_assoc]

/-- Summary of the loop on the repository and the log: `DeleteEvent` is applied
to every id in order, each time to the state the previous call left, and each
answer with an error is logged. -/
theorem foldl_sweep_visit_repo (r : Repository ρ) (events : List EventToClean)
    (st : SweepState ρ) :
    (events.foldl (visit r) st).repo =
        events.foldl (fun s e => (r.DeleteEvent s e.ID).2) st.repo ∧
      (events.foldl (visit r) st).logger = st.logger ++ deleteWarnings r st.repo events := by
  induction events generalizing st with
  | nil => simp [deleteWarnings]
  | cons e rest ih =>
    obtain ⟨h₁, h₂⟩ := ih (visit r st e)
    rw [List.foldl_cons, h₁, h₂, visit_repo, visit_logger, List.foldl_cons,
      deleteWarnings_cons r st.repo e rest, List.append_assoc]
    exact ⟨rfl, rfl⟩

theorem sweepCycle_of_ok_repo (r : Repository ρ) (c : Cleaner ρ) {events : List EventToClean}
    {repo : ρ} (h : r.GetEventsToClean c.repo = (.ok events, repo)) :
    (sweepCycle r c).1.repo = events.foldl (fun s e => (r.DeleteEvent s e.ID).2) repo ∧
      (sweepCycle r c).1.logger =
        Info (c.logger ++ deleteWarnings r repo events) "archived and deleted old events"
          [("count", FieldValue.int (sweepCycle r c).1.storeArchive.len)] := by
  unfold sweepCycle
  rw [h]
  simp only []
  have := foldl_sweep_visit_repo r events
    { repo := repo, storeArchive := c.storeArchive, logger := c.logger, deletes := [] }
  exact ⟨this.1, by rw [this.2]⟩

theorem sweepCycle_of_error (r : Repository ρ) (c : Cleaner ρ) {err : String}
    {repo : ρ} (h : r.GetEventsToClean c.repo = (.error err, repo)) :
    sweepCycle r c =
      ({ repo := repo, storeArchive := c.storeArchive,
         logger := Warn c.logger "failed to get events to clean" [zapError err] }, []) := by
  unfold sweepCycle
  rw [h]

theorem mem_keys_archiveAll (a : GoMap EventCreate) (events : List EventToClean) (k : String) :
    k ∈ GoMap.keys (archiveAll a events) ↔
      k ∈ GoMap.keys a ∨ ∃ e ∈ events, sprintfKey e.Mail e.Event = k := by
  induction events generalizing a with
  | nil => simp [archiveAll]
  | cons e rest ih =>
    have : archiveAll a (e :: rest) =
        archiveAll (a.set (sprintfKey e.Mail e.Event) (archived e)) rest := rfl
    rw [this, ih, GoMap.mem_keys_set]
    simp only [List.mem_cons, exists_eq_or_imp]
    constructor
    · rintro ((h | h) | h)
      · exact Or.inr (Or.inl h.symm)
      · exact Or.inl h
      · exact Or.inr (Or.inr h)
    · rintro (h | h | h)
      · exact Or.inl (Or.inr h)
      · exact Or.inl (Or.inl h.symm)
      · exact Or.inr h

theorem get?_archiveAll_of_no_key (a : GoMap EventCreate) (events : List EventToClean)
    (k : String) (h : ∀ e ∈ events, sprintfKey e.Mail e.Event ≠ k) :
    GoMap.get? (archiveAll a events) k = GoMap.get? a k := by
  induction events generalizing a with
  | nil => rfl
  | cons e rest ih =>
    have : archiveAll a (e :: rest) =
        archiveAll (a.set (sprintfKey e.Mail e.Event) (archived e)) rest := rfl
    rw [this, ih _ (fun e' he' => h e' (List.mem_cons_of_mem _ he'))]
    exact GoMap.get?_set_other a _ (fun hk => h e (List.mem_cons_self _ _) hk.symm)

theorem archiveAll_append (a : GoMap EventCreate) (xs ys : List EventToClean) :
    archiveAll a (xs ++ ys) = archiveAll (archiveAll a xs) ys := by
  simp [archiveAll, List.foldl_append]

/-- The entry under the key of an event which no later event of the batch
overwrites. -/
theorem get?_archiveAll_last (a : GoMap EventCreate) (pre post : List EventToClean)
    (e : EventToClean)
    (h : ∀ e' ∈ post, sprintfKey e'.Mail e'.Event ≠ sprintfKey e.Mail e.Event) :
    GoMap.get? (archiveAll a (pre ++ e :: post)) (sprintfKey e.Mail e.Event) =
      some (archived e) := by
  rw [archiveAll_append]
  have : archiveAll (archiveAll a pre) (e :: post) =
      archiveAll ((archiveAll a pre).set (sprintfKey e.Mail e.Event) (archived e)) post := rfl
  rw [this, get?_archiveAll_of_no_key _ _ _ h, GoMap.get?_set_self]

end Cleaner

/-! ## Claims about the cleaner -/

/-- C4: when the fetch succeeds, one sweep cycle leaves an archive entry under
the key of every fetched event and asks the repository to delete the id of
every fetched event once, in fetch order, whatever the deletes answer:
`DeleteEvent` is applied to each id in turn, to the repository state the
previous call left, starting from the state the fetch returned. An answer with
an error only adds a warning carrying the error and the id of the event to the
log. The entry under the key of an event is the copy of that event unless a
later event of the batch has the same key. -/
theorem sweep_archives_and_deletes_every_event {ρ : Type} (r : Repository ρ) (c : Cleaner ρ)
    (events : List EventToClean) (repo : ρ)
    (hfetch : r.GetEventsToClean c.repo = (.ok events, repo)) :
    (∀ e ∈ events, sprintfKey e.Mail e.Event ∈ GoMap.keys (Cleaner.sweepCycle r c).1.storeArchive) ∧
      (Cleaner.sweepCycle r c).2 = events.map (fun e => e.ID) ∧
      (Cleaner.sweepCycle r c).1.repo =
        events.foldl (fun s e => (r.DeleteEvent s e.ID).2) repo ∧
      (Cleaner.sweepCycle r c).1.logger =
        Info (c.logger ++ Cleaner.deleteWarnings r repo events) "archived and deleted old events"
          [("count", FieldValue.int (Cleaner.sweepCycle r c).1.storeArchive.len)] ∧
      ∀ pre e post, events = pre ++ e :: post →
        ((∀ e' ∈ post, sprintfKey e'.Mail e'.Event ≠ sprintfKey e.Mail e.Event) →
          GoMap.get? (Cleaner.sweepCycle r c).1.storeArchive (sprintfKey e.Mail e.Event) =
            some (Cleaner.archived e)) ∧
        ∀ err,
          (r.DeleteEvent (pre.foldl (fun s e => (r.DeleteEvent s e.ID).2) repo) e.ID).1.2 =
              some err →
            ({ level := "warn", msg := "failed to delete event from db",
               fields := [zapError err, ("event_id", FieldValue.uint e.ID)] } : LogRecord) ∈
              (Cleaner.sweepCycle r c).1.logger := by
  obtain ⟨h₁, h₂⟩ := Cleaner.sweepCycle_of_ok r c hfetch
  obtain ⟨h₃, h₄⟩ := Cleaner.sweepCycle_of_ok_repo r c hfetch
  refine ⟨fun e he => ?_, h₂, h₃, h₄, ?_⟩
  · rw [h₁, Cleaner.mem_keys_archiveAll]
    exact Or.inr ⟨e, he, rfl⟩
  · intro pre e post hsplit
    constructor
    · intro hlast
      rw [h₁, hsplit]
      exact Cleaner.get?_archiveAll_last _ pre post e hlast
    · intro err herr
      rw [h₄, hsplit, Cleaner.deleteWarnings_append, Cleaner.deleteWarnings_cons]
      simp [Info, Cleaner.deleteWarnings, herr]

theorem sweep_archives_and_deletes_every_event_witness :
    Sample.recording.GetEventsToClean Sample.recordingCleaner.repo = (.ok Sample.expired, []) ∧
      (Sample.recording.DeleteEvent [1] 2).1.2 = some "db: locked" ∧
      (∀ e ∈ Sample.expired, sprintfKey e.Mail e.Event ∈
        GoMap.keys (Cleaner.sweepCycle Sample.recording Sample.recordingCleaner).1.storeArchive) ∧
      (Cleaner.sweepCycle Sample.recording Sample.recordingCleaner).2 = [1, 2, 3] ∧
      (Cleaner.sweepCycle Sample.recording Sample.recordingCleaner).1.repo = [1, 2, 3] :=
  ⟨rfl, rfl,
    (sweep_archives_and_deletes_every_event Sample.recording Sample.recordingCleaner
      Sample.expired [] rfl).1,
    (sweep_archives_and_deletes_every_event Sample.recording Sample.recordingCleaner
      Sample.expired [] rfl).2.1,
    (sweep_archives_and_deletes_every_event Sample.recording Sample.recordingCleaner
      Sample.expired [] rfl).2.2.1⟩

/-- C5: when the fetch returns an error, the sweep cycle leaves the archive as
it was, passes no id to `DeleteEvent`, and leaves the repository in the state
the fetch returned. -/
theorem sweep_skips_cycle_on_fetch_error {ρ : Type} (r : Repository ρ) (c : Cleaner ρ)
    (err : String) (repo : ρ)
    (hfetch : r.GetEventsToClean c.repo = (.error err, repo)) :
    (Cleaner.sweepCycle r c).1.storeArchive = c.storeArchive ∧
      (Cleaner.sweepCycle r c).2 = [] ∧ (Cleaner.sweepCycle r c).1.repo = repo := by
  rw [Cleaner.sweepCycle_of_error r c hfetch]
  exact ⟨rfl, rfl, rfl⟩

theorem sweep_skips_cycle_on_fetch_error_witness :
    Sample.fetchFails.GetEventsToClean Sample.cleaner.repo = (.error "db: down", ()) ∧
      (Cleaner.sweepCycle Sample.fetchFails Sample.cleaner).1.storeArchive =
        Sample.cleaner.storeArchive ∧
      (Cleaner.sweepCycle Sample.fetchFails Sample.cleaner).2 = [] ∧
      (Cleaner.sweepCycle Sample.fetchFails Sample.cleaner).1.repo = () :=
  ⟨rfl, sweep_skips_cycle_on_fetch_error Sample.fetchFails Sample.cleaner "db: down" () rfl⟩

/-- C7 as stated fails: two fetched events that differ in record id and in
creation time leave the same archive entry, so no reading of the entry gives
back the record id and the creation time of the fetched event. -/
theorem archive_entry_omits_id_and_creation :
    ¬ ∃ (recordID : EventCreate → Nat) (createdAt : EventCreate → Int),
      ∀ ev ∈ [Sample.gym, Sample.gymAgain], ∀ entry,
        GoMap.get? (Cleaner.sweepCycle (Sample.fetching [ev]) Sample.cleaner).1.storeArchive
          (sprintfKey ev.Mail ev.Event) = some entry →
        recordID entry = ev.ID ∧ createdAt entry = ev.CreatedAt := by
  rintro ⟨recordID, createdAt, h⟩
  have h₁ := (h Sample.gym (by decide) (Cleaner.archived Sample.gym) (by decide)).1
  have h₂ := (h Sample.gymAgain (by decide) (Cleaner.archived Sample.gym) (by decide)).1
  have : Sample.gym.ID = Sample.gymAgain.ID := h₁.symm.trans h₂
  exact absurd this (by decide)

/-- C7 amended: when the fetch succeeds, the archive entry written for a fetched
event has the user id, text, date and mail of that event, and after the sweep
cycle it is the entry under the key of the event unless a later event of the
batch has the same key. -/
theorem archive_entry_copies_four_fields {ρ : Type} (r : Repository ρ) (c : Cleaner ρ)
    (pre post : List EventToClean) (e : EventToClean) (repo : ρ)
    (hfetch : r.GetEventsToClean c.repo = (.ok (pre ++ e :: post), repo))
    (hlast : ∀ e' ∈ post, sprintfKey e'.Mail e'.Event ≠ sprintfKey e.Mail e.Event) :
    GoMap.get? (Cleaner.sweepCycle r c).1.storeArchive (sprintfKey e.Mail e.Event) =
        some (Cleaner.archived e) ∧
      (Cleaner.archived e).UserID = e.UserID ∧ (Cleaner.archived e).Event = e.Event ∧
      (Cleaner.archived e).Date = e.Date ∧ (Cleaner.archived e).Mail = e.Mail := by
  refine ⟨?_, rfl, rfl, rfl, rfl⟩
  rw [(Cleaner.sweepCycle_of_ok r c hfetch).1]
  exact Cleaner.get?_archiveAll_last _ pre post e hlast

theorem archive_entry_copies_four_fields_witness :
    (Sample.fetching ([Sample.gymAgain] ++ Sample.gym :: [])).GetEventsToClean
        Sample.cleaner.repo = (.ok ([Sample.gymAgain] ++ Sample.gym :: []), ()) ∧
      GoMap.get? (Cleaner.sweepCycle (Sample.fetching ([Sample.gymAgain] ++ Sample.gym :: []))
          Sample.cleaner).1.storeArchive (sprintfKey Sample.gym.Mail Sample.gym.Event) =
        some (Cleaner.archived Sample.gym) :=
  ⟨rfl,
    (archive_entry_copies_four_fields (Sample.fetching ([Sample.gymAgain] ++ Sample.gym :: []))
      Sample.cleaner [Sample.gymAgain] [] Sample.gym () rfl (by simp)).1⟩

/-- C9: a key of the archive is still a key of the archive after a sweep
cycle, whatever the fetch and the deletes return, and the entry under it is
unchanged unless the fetch succeeded and returned an event with that key. -/
theorem sweep_never_removes_archive_key {ρ : Type} (r : Repository ρ) (c : Cleaner ρ)
    (k : String) (hk : k ∈ GoMap.keys c.storeArchive) :
    k ∈ GoMap.keys (Cleaner.sweepCycle r c).1.storeArchive ∧
      (GoMap.get? (Cleaner.sweepCycle r c).1.storeArchive k ≠ GoMap.get? c.storeArchive k →
        ∃ events repo, r.GetEventsToClean c.repo = (.ok events, repo) ∧
          ∃ e ∈ events, sprintfKey e.Mail e.Event = k) := by
  rcases hf : r.GetEventsToClean c.repo with ⟨res, repo⟩
  cases res with
  | error err =>
    rw [Cleaner.sweepCycle_of_error r c hf]
    exact ⟨hk, fun h => absurd rfl h⟩
  | ok events =>
    rw [(Cleaner.sweepCycle_of_ok r c hf).1]
    refine ⟨(Cleaner.mem_keys_archiveAll _ _ _).mpr (Or.inl hk), fun hne => ?_⟩
    refine ⟨events, repo, rfl, ?_⟩
    by_contra hcon
    push_neg at hcon
    exact hne (Cleaner.get?_archiveAll_of_no_key _ _ _ hcon)

theorem sweep_never_removes_archive_key_witness :
    "dan@x.io-exam" ∈ GoMap.keys Sample.cleaner.storeArchive ∧
      "dan@x.io-exam" ∈
        GoMap.keys (Cleaner.sweepCycle Sample.secondDeleteFails Sample.cleaner).1.storeArchive :=
  ⟨by decide,
    (sweep_never_removes_archive_key Sample.secondDeleteFails Sample.cleaner "dan@x.io-exam"
      (by decide)).1⟩

/-! ## Worker and Notifier -/

theorem bare_Warn (logger : List LogRecord) (msg : String) (fields : List (String × FieldValue)) :
    bare (Warn logger msg fields) = bare logger ++ [("warn", msg)] := by
  simp [bare, Warn]

theorem Worker.visit_agree {σ : Type} (m : mailI σ) (marshal : Marshaler) (now later : Int)
    {a b : ScanState σ} (h : a.agree b) (entry : String × EventCreate) :
    (Worker.visit m marshal now later a entry).agree
      (Notifier.visit m marshal now later b entry) := by
  obtain ⟨h₁, h₂, h₃, h₄⟩ := h
  have hs : ∀ s msg, Worker.sendToMail m s msg = Notifier.sendToMail m s msg := fun _ _ => rfl
  unfold Worker.visit Notifier.visit Notifier.due
  by_cases hd : ¬ entry.2.Date < now ∧ ¬ entry.2.Date > later
  · rw [if_pos hd, if_pos hd]
    cases hm : marshal entry.2 <;> simp only [hs, h₁] <;>
      cases hr : (Notifier.sendToMail m b.mail _).1 <;>
      simp [ScanState.agree, h₂, h₃, h₄, bare_Warn]
  · rw [if_neg hd, if_neg hd]
    exact ⟨h₁, h₂, h₃, h₄⟩

theorem Worker.foldl_visit_agree {σ : Type} (m : mailI σ) (marshal : Marshaler)
    (now later : Int) (l : List (String × EventCreate)) (a b : ScanState σ) (h : a.agree b) :
    (l.foldl (Worker.visit m marshal now later) a).agree
      (l.foldl (Notifier.visit m marshal now later) b) := by
  induction l generalizing a b with
  | nil => exact h
  | cons p rest ih => exact ih _ _ (Worker.visit_agree m marshal now later h p)

/-- C10: started from the same store, sink state and log, the ingest step of
`Worker` and of `Notifier` give the same store, and the scan cycle that follows
gives the same store, the same sink state and the same sequence of sink calls;
the two logs have the same levels and messages, record by record. -/
theorem worker_agrees_with_notifier {σ : Type} (m : mailI σ) (marshal : Marshaler)
    (store : GoMap EventCreate) (mail : σ) (logger : List LogRecord) (event : EventCreate)
    (now : Int) :
    (Worker.ingest { store := store, mail := mail, logger := logger } event).store =
        (Notifier.ingest { store := store, mail := mail, logger := logger } event).store ∧
      (Worker.scanCycle m marshal
          (Worker.ingest { store := store, mail := mail, logger := logger } event) now).1.store =
        (Notifier.scanCycle m marshal
          (Notifier.ingest { store := store, mail := mail, logger := logger } event) now).1.store ∧
      (Worker.scanCycle m marshal
          (Worker.ingest { store := store, mail := mail, logger := logger } event) now).1.mail =
        (Notifier.scanCycle m marshal
          (Notifier.ingest { store := store, mail := mail, logger := logger } event) now).1.mail ∧
      (Worker.scanCycle m marshal
          (Worker.ingest { store := store, mail := mail, logger := logger } event) now).2 =
        (Notifier.scanCycle m marshal
          (Notifier.ingest { store := store, mail := mail, logger := logger } event) now).2 ∧
      bare (Worker.scanCycle m marshal
          (Worker.ingest { store := store, mail := mail, logger := logger } event) now).1.logger =
        bare (Notifier.scanCycle m marshal
          (Notifier.ingest { store := store, mail := mail, logger := logger } event) now).1.logger := by
  have h := Worker.foldl_visit_agree m marshal now (now + Hour)
    (GoMap.set store (sprintfKey event.Mail event.Event) event)
    { mail := mail, logger := logger, toDelete := [], calls := [] }
    { mail := mail, logger := logger, toDelete := [], calls := [] }
    ⟨rfl, rfl, rfl, rfl⟩
  obtain ⟨h₁, h₂, h₃, h₄⟩ := h
  refine ⟨rfl, ?_, h₁, h₃, h₄⟩
  simp only [Worker.scanCycle, Worker.scanLoop, Worker.ingest, Notifier.scanCycle,
    Notifier.scanLoop, Notifier.ingest]
  rw [h₂]

/-! ## The identity key -/

/-- Two lists split at the first occurrence of `c` have the same parts. -/
theorem split_at_first_unique {α : Type} {c : α} : ∀ {l₁ l₂ r₁ r₂ : List α}, c ∉ l₁ → c ∉ l₂ →
    l₁ ++ c :: r₁ = l₂ ++ c :: r₂ → l₁ = l₂ ∧ r₁ = r₂
  | [], [], _, _, _, _, h => ⟨rfl, by simpa using h⟩
  | [], b :: l₂, _, _, _, h₂, h => by
    simp only [List.nil_append, List.cons_append, List.cons.injEq] at h
    exact absurd (h.1 ▸ List.mem_cons_self _ _) h₂
  | a :: l₁, [], _, _, h₁, _, h => by
    simp only [List.nil_append, List.cons_append, List.cons.injEq] at h
    exact absurd (h.1 ▸ List.mem_cons_self _ _) h₁
  | a :: l₁, b :: l₂, _, _, h₁, h₂, h => by
    simp only [List.cons_append, List.cons.injEq] at h
    obtain ⟨h', hr⟩ := split_at_first_unique (fun hc => h₁ (List.mem_cons_of_mem _ hc))
      (fun hc => h₂ (List.mem_cons_of_mem _ hc)) h.2
    exact ⟨by rw [h.1, h'], hr⟩

theorem sprintfKey_data (mail event : String) :
    (sprintfKey mail event).data = mail.data ++ '-' :: event.data := by
  simp [sprintfKey]

/-- C11: the key is not injective: the events with mail "a-b", text "c" and
with mail "a", text "b-c" differ in mail and in text and have the same key.
Ingesting two events with the same key into a store with one entry per key
leaves one entry under that key, the second event, and it is the only entry
when the store was empty. When neither mail contains a dash, two events have
the same key iff they have the same mail and the same text. -/
theorem sprintfKey_injective_iff_no_dash {σ : Type} (n : Notifier σ) (A B : EventCreate)
    (hwf : n.store.WF) :
    (∃ P Q : EventCreate, P.Mail = "a-b" ∧ P.Event = "c" ∧ Q.Mail = "a" ∧ Q.Event = "b-c" ∧
        P.Mail ≠ Q.Mail ∧ P.Event ≠ Q.Event ∧
        sprintfKey P.Mail P.Event = sprintfKey Q.Mail Q.Event) ∧
      (sprintfKey A.Mail A.Event = sprintfKey B.Mail B.Event →
        ((n.ingest A).ingest B).store.filter
            (fun p => p.1 = sprintfKey B.Mail B.Event) = [(sprintfKey B.Mail B.Event, B)] ∧
          (n.store = [] → ((n.ingest A).ingest B).store = [(sprintfKey B.Mail B.Event, B)])) ∧
      ('-' ∉ A.Mail.toList → '-' ∉ B.Mail.toList →
        (sprintfKey A.Mail A.Event = sprintfKey B.Mail B.Event ↔
          A.Mail = B.Mail ∧ A.Event = B.Event)) := by
  refine ⟨⟨Sample.dashInMail, Sample.dashInText, rfl, rfl, rfl, rfl, by decide, by decide,
    by decide⟩, ?_, ?_⟩
  · intro hkey
    refine ⟨GoMap.filter_key_set (hwf.set _ _) _ _, fun hnil => ?_⟩
    simp [Notifier.ingest, hnil, GoMap.set, hkey]
  · intro hA hB
    constructor
    · intro hkey
      have hd := congrArg String.data hkey
      rw [sprintfKey_data, sprintfKey_data] at hd
      obtain ⟨h₁, h₂⟩ := split_at_first_unique hA hB hd
      exact ⟨String.ext h₁, String.ext h₂⟩
    · rintro ⟨h₁, h₂⟩
      rw [h₁, h₂]

theorem sprintfKey_injective_iff_no_dash_witness :
    Sample.idle.store.WF ∧
      sprintfKey Sample.dashInMail.Mail Sample.dashInMail.Event =
        sprintfKey Sample.dashInText.Mail Sample.dashInText.Event ∧
      ((Sample.idle.ingest Sample.dashInMail).ingest Sample.dashInText).store =
        [(sprintfKey Sample.dashInText.Mail Sample.dashInText.Event, Sample.dashInText)] :=
  ⟨by decide, by decide,
    ((sprintfKey_injective_iff_no_dash Sample.idle Sample.dashInMail Sample.dashInText
      (by decide)).2.1 (by decide)).2 rfl⟩

/-! ## The asynchronous logger -/

/-- C13: `logWithLevel` hands no record to the logger for a nil entry and
exactly one for any other entry. The record has the message of the entry; its
level is debug, info, warn, error or fatal for the level strings "debug",
"info", "warn" or "warning", "error", "fatal", and info for every other string;
it carries the field of the entry iff the key of the field is not empty. -/
theorem logWithLevel_one_record (a : AsyncLogger) :
    a.logWithLevel none = a ∧
      ∀ entry : Log, ∃ level : String,
        (a.logWithLevel (some entry)).logger = a.logger ++
            [{ level := level, msg := entry.Msg,
               fields := if entry.Field.1 = "" then [] else [entry.Field] }] ∧
          (entry.Level = "debug" → level = "debug") ∧
          (entry.Level = "info" → level = "info") ∧
          (entry.Level = "warn" ∨ entry.Level = "warning" → level = "warn") ∧
          (entry.Level = "error" → level = "error") ∧
          (entry.Level = "fatal" → level = "fatal") ∧
          (entry.Level ∉ ["debug", "info", "warn", "warning", "error", "fatal"] →
            level = "info") := by
  refine ⟨rfl, fun entry => ?_⟩
  refine ⟨if entry.Level = "debug" then "debug" else if entry.Level = "info" then "info"
    else if entry.Level = "warn" ∨ entry.Level = "warning" then "warn"
    else if entry.Level = "error" then "error"
    else if entry.Level = "fatal" then "fatal" else "info", ?_, ?_⟩
  · simp only [AsyncLogger.logWithLevel]
    by_cases hk : entry.Field.1 = "" <;> simp only [hk, if_true, if_false] <;>
      split_ifs <;> simp [Debug, Info, Warn, Error, Fatal]
  · refine ⟨?_, ?_, ?_, ?_, ?_, ?_⟩
    · intro h; simp [h]
    · intro h; simp [h]
    · rintro (h | h) <;> simp [h]
    · intro h; simp [h]
    · intro h; simp [h]
    · intro h
      simp only [List.mem_cons, List.mem_singleton, List.not_mem_nil, or_false, not_or] at h
      simp [h]

/-! ## Iteration order of the scan -/

theorem GoMap.get?_eq_of_perm {α : Type} {a b : GoMap α} (hwf : GoMap.WF a) (h : a.Perm b)
    (k : String) : GoMap.get? a k = GoMap.get? b k := by
  have hwf' : GoMap.WF b := (List.Perm.nodup_iff (h.map Prod.fst)).mp hwf
  cases hg : GoMap.get? a k with
  | none =>
    have hk : k ∉ GoMap.keys b := fun hb =>
      (GoMap.get?_eq_none_iff.mp hg) (((h.map Prod.fst).mem_iff).mpr hb)
    exact (GoMap.get?_eq_none_iff.mpr hk).symm
  | some v =>
    exact (GoMap.get?_eq_some_of_mem hwf' (h.mem_iff.mp (GoMap.mem_of_get?_eq_some hg))).symm

theorem Notifier.sendToMail_isNone {σ : Type} (m : mailI σ) (s : σ) (msg : List Nat) :
    (Notifier.sendToMail m s msg).1.isNone = (m.SendMessage s msg).1.isNone := by
  unfold Notifier.sendToMail
  rcases m.SendMessage s msg with ⟨_ | e, s'⟩ <;> rfl

/-- With a sink whose acceptance depends on the message only, the outcomes of
the calls of the loop are a function of the entries visited. -/
theorem Notifier.foldl_visit_outcomes {σ : Type} (m : mailI σ) (marshal : Marshaler)
    (accepts : List Nat → Bool)
    (hf : ∀ s msg, (m.SendMessage s msg).1.isNone = accepts msg) (now later : Int)
    (l : List (String × EventCreate)) (st : ScanState σ) :
    (l.foldl (Notifier.visit m marshal now later) st).calls.map Notifier.outcome =
      st.calls.map Notifier.outcome ++
        (l.filter (fun p => Notifier.due now later p.2)).map
          (fun p => (p.1, Notifier.payload marshal p.2, accepts (Notifier.payload marshal p.2))) := by
  induction l generalizing st with
  | nil => simp
  | cons p rest ih =>
    rw [List.foldl_cons, ih]
    by_cases h : Notifier.due now later p.2
    · rw [(Notifier.visit_of_due m marshal st h).1, List.filter_cons_of_pos (by simpa using h)]
      simp [Notifier.outcome, Notifier.sendToMail_isNone, hf]
    · rw [Notifier.visit_of_not_due m marshal st h, List.filter_cons_of_neg (by simpa using h)]

theorem Notifier.delivered_eq_of_outcomes (calls : List SinkCall) :
    Notifier.delivered calls =
      ((calls.map Notifier.outcome).filter (fun o => o.2.2)).map (fun o => o.1) := by
  induction calls with
  | nil => rfl
  | cons c cs ih =>
    unfold Notifier.delivered at ih ⊢
    cases he : c.err with
    | none => simp [List.filter_cons, Notifier.outcome, he, ih]
    | some e => simp [List.filter_cons, Notifier.outcome, he, ih]

theorem Notifier.scanCycle_outcomes {σ : Type} (m : mailI σ) (marshal : Marshaler)
    (accepts : List Nat → Bool)
    (hf : ∀ s msg, (m.SendMessage s msg).1.isNone = accepts msg) (n : Notifier σ) (now : Int) :
    (Notifier.scanCycle m marshal n now).2.map Notifier.outcome =
      (n.store.filter (fun p => Notifier.due now (now + Hour) p.2)).map
        (fun p => (p.1, Notifier.payload marshal p.2, accepts (Notifier.payload marshal p.2))) := by
  have := Notifier.foldl_visit_outcomes m marshal accepts hf now (now + Hour) n.store
    { mail := n.mail, logger := n.logger, toDelete := [], calls := [] }
  simpa [Notifier.scanCycle, Notifier.scanLoop] using this

/-- C12: for a sink whose acceptance of a message depends on the message only,
two scan cycles at the same time over the same store visited in two orders end
with the same store (the same entries, the same value under every key) and make
the same calls up to order: same keys, same messages, same acceptance. -/
theorem scan_independent_of_iteration_order {σ : Type} (m : mailI σ) (marshal : Marshaler)
    (accepts : List Nat → Bool)
    (hf : ∀ s msg, (m.SendMessage s msg).1.isNone = accepts msg)
    (n₁ n₂ : Notifier σ) (hperm : n₁.store.Perm n₂.store) (hwf : n₁.store.WF) (now : Int) :
    (Notifier.scanCycle m marshal n₁ now).1.store.Perm
        (Notifier.scanCycle m marshal n₂ now).1.store ∧
      (∀ k, GoMap.get? (Notifier.scanCycle m marshal n₁ now).1.store k =
        GoMap.get? (Notifier.scanCycle m marshal n₂ now).1.store k) ∧
      ((Notifier.scanCycle m marshal n₁ now).2.map Notifier.outcome).Perm
        ((Notifier.scanCycle m marshal n₂ now).2.map Notifier.outcome) := by
  have hout : ((Notifier.scanCycle m marshal n₁ now).2.map Notifier.outcome).Perm
      ((Notifier.scanCycle m marshal n₂ now).2.map Notifier.outcome) := by
    rw [Notifier.scanCycle_outcomes m marshal accepts hf,
      Notifier.scanCycle_outcomes m marshal accepts hf]
    exact (hperm.filter _).map _
  have hdel : ∀ k, k ∈ Notifier.delivered (Notifier.scanCycle m marshal n₁ now).2 ↔
      k ∈ Notifier.delivered (Notifier.scanCycle m marshal n₂ now).2 := by
    intro k
    rw [Notifier.delivered_eq_of_outcomes, Notifier.delivered_eq_of_outcomes]
    exact ((hout.filter _).map _).mem_iff
  have hstore : (Notifier.scanCycle m marshal n₁ now).1.store.Perm
      (Notifier.scanCycle m marshal n₂ now).1.store := by
    rw [(Notifier.scanCycle_summary m marshal n₁ now).1,
      (Notifier.scanCycle_summary m marshal n₂ now).1]
    have hcongr : n₁.store.filter
          (fun p => p.1 ∉ Notifier.delivered (Notifier.scanCycle m marshal n₁ now).2) =
        n₁.store.filter
          (fun p => p.1 ∉ Notifier.delivered (Notifier.scanCycle m marshal n₂ now).2) :=
      List.filter_congr (fun p _ => by simp [hdel p.1])
    rw [hcongr]
    exact hperm.filter _
  have hwf' : GoMap.WF (Notifier.scanCycle m marshal n₁ now).1.store := by
    rw [(Notifier.scanCycle_summary m marshal n₁ now).1]
    exact List.Nodup.sublist ((List.filter_sublist n₁.store).map Prod.fst) hwf
  exact ⟨hstore, GoMap.get?_eq_of_perm hwf' hstore, hout⟩

theorem scan_independent_of_iteration_order_witness :
    (∀ s msg, (Sample.refuseStandup.SendMessage s msg).1.isNone =
        Sample.acceptsAllButStandup msg) ∧
      Sample.notifier.store.Perm Sample.backwards ∧ Sample.notifier.store.WF ∧
      (Notifier.scanCycle Sample.refuseStandup Sample.textBytes Sample.notifier 0).1.store.Perm
        (Notifier.scanCycle Sample.refuseStandup Sample.textBytes
          { store := Sample.backwards, mail := (), logger := [] } 0).1.store :=
  have hf : ∀ s msg, (Sample.refuseStandup.SendMessage s msg).1.isNone =
      Sample.acceptsAllButStandup msg := by
    intro s msg
    simp only [Sample.refuseStandup, Sample.acceptsAllButStandup]
    split <;> simp_all
  ⟨hf, by decide, by decide,
    (scan_independent_of_iteration_order Sample.refuseStandup Sample.textBytes
      Sample.acceptsAllButStandup hf Sample.notifier
      { store := Sample.backwards, mail := (), logger := [] } (by decide) (by decide) 0).1⟩

/-- Two runs of `logWithLevel`: level "warning" with a field, and an unknown
level without one. -/
theorem logWithLevel_samples :
    (AsyncLogger.logWithLevel { logger := [] } (some Sample.badMethod)).logger =
        [{ level := "warn", msg := "not allowed methods",
           fields := [("method", FieldValue.string "PUT")] }] ∧
      (AsyncLogger.logWithLevel { logger := [] } (some Sample.shout)).logger =
        [{ level := "info", msg := "event created", fields := [] }] := by
  decide

end Calendar
